import Mathlib

/-!
Verification development for the `basic-income-basic-job` Monte Carlo
simulation.  The JavaScript source is embedded shallowly:

* the stream of `Math.random()` draws becomes an explicit function
  `u : ℕ → ℚ` together with an index into the stream that every sampler
  threads through;
* the unbounded Marsaglia rejection loop of `gaussRand` becomes a
  fuel-indexed loop returning `Option` (`none` models non-termination of
  the rejection sampling within the given fuel);
* JavaScript objects holding cost/benefit components become association
  lists `List (String × ℝ)` in insertion order, and `Object.keys`
  iteration becomes iteration over that list;
* JavaScript numbers are modelled by exact real arithmetic (`ℝ`), with
  `Real.sqrt`, `Real.log` and Mathlib's `round` (which, like JS
  `Math.round`, maps `x` to `⌊x + 1/2⌋`).
-/

namespace BasicIncomeBasicJob

/-- From 2010 census: `var numAdults = 227e6`. -/
def numAdults : ℝ := 227e6

/-- Minimum wage, 40 hours/week, 50 weeks/year: `var basicIncome = 7.25 * 40 * 50`. -/
noncomputable def basicIncome : ℝ := 7.25 * 40 * 50

/-- Also from 2010: `var laborForce = 154e6`. -/
def laborForce : ℝ := 154e6

/-- Also from 2010: `var disabledAdults = 21e6`. -/
def disabledAdults : ℝ := 21e6

/-- Also from 2010, includes SS, Medicare, welfare, etc.:
`var currentWealthTransfers = 3369e9`. -/
def currentWealthTransfers : ℝ := 3369e9

/-- `uniformRand(min, max)` from the source, with the single
`Math.random()` draw `r` passed explicitly:
`return Math.random() * (max - min) + min`. -/
def uniformRand (mn mx r : ℚ) : ℚ := r * (mx - mn) + mn

/-- The `do … while (radius >= 1 || radius === 0)` rejection loop of
`gaussRand`, reading pairs of draws `u i, u (i+1)` and returning the
accepted `(z1, radius)` together with the index just past the consumed
draws.  `none` means the fuel ran out before a pair was accepted. -/
def gaussLoop (u : ℕ → ℚ) : ℕ → ℕ → Option (ℚ × ℚ × ℕ)
  | 0, _ => none
  | fuel + 1, i =>
    let z1 := 2 * u i - 1
    let z2 := 2 * u (i + 1) - 1
    let radius := z1 * z1 + z2 * z2
    if 1 ≤ radius ∨ radius = 0 then gaussLoop u fuel (i + 2)
    else some (z1, radius, i + 2)

/-- `gaussRand(mu, sigma)` from the source: after the rejection loop,
`marsaglia = Math.sqrt(-2 * Math.log(radius) / radius)` and the result is
`(z1 * marsaglia) * sigma + mu`.  Returns the sample together with the
next unconsumed stream index. -/
noncomputable def gaussRand (mu sigma : ℝ) (u : ℕ → ℚ) (fuel i : ℕ) : Option (ℝ × ℕ) :=
  (gaussLoop u fuel i).map fun r =>
    (((r.1 : ℝ) * Real.sqrt (-2 * Real.log (r.2.1 : ℝ) / (r.2.1 : ℝ))) * sigma + mu, r.2.2)

/-- `binomRand(N, p)` from the source:
`count = Math.round(gaussRand(N * p, Math.sqrt(N * p * (1 - p))))` and
`return count > 0 ? count : 0`. -/
noncomputable def binomRand (N p : ℝ) (u : ℕ → ℚ) (fuel i : ℕ) : Option (ℤ × ℕ) :=
  (gaussRand (N * p) (Real.sqrt (N * p * (1 - p))) u fuel i).map fun g =>
    (if 0 < round g.1 then round g.1 else 0, g.2)

/-- C2: whenever the Marsaglia rejection loop exits with an accepted
`radius = z1*z1 + z2*z2`, that radius satisfies `0 < radius < 1`, so
`sqrt (-2 * log radius / radius)` is only ever evaluated on a radius
strictly between 0 and 1 and neither a division by zero nor a logarithm
of zero can occur. -/
theorem gaussLoop_radius_pos_lt_one (u : ℕ → ℚ) (fuel i : ℕ) (z r : ℚ) (j : ℕ)
    (h : gaussLoop u fuel i = some (z, r, j)) : 0 < r ∧ r < 1 := by
  induction fuel generalizing i with
  | zero => simp [gaussLoop] at h
  | succ n ih =>
    rw [gaussLoop] at h
    split at h
    · exact ih _ h
    · rename_i hcond
      push_neg at hcond
      rw [Option.some.injEq, Prod.mk.injEq] at h
      obtain ⟨hz, hr⟩ := h
      rw [Prod.mk.injEq] at hr
      obtain ⟨hr, hj⟩ := hr
      subst hr
      refine ⟨lt_of_le_of_ne ?_ (Ne.symm hcond.2), hcond.1⟩
      nlinarith [sq_nonneg (2 * u i - 1), sq_nonneg (2 * u (i + 1) - 1)]

theorem gaussLoop_quarter (i : ℕ) :
    gaussLoop (fun _ => (1/4 : ℚ)) 1 i = some (-(1/2), 1/2, i + 2) := by
  rw [gaussLoop]
  norm_num

theorem gaussLoop_radius_witness :
    gaussLoop (fun _ => (1/4 : ℚ)) 1 0 = some (-(1/2), 1/2, 2) ∧
      (0 < (1/2 : ℚ) ∧ (1/2 : ℚ) < 1) :=
  ⟨gaussLoop_quarter 0, gaussLoop_radius_pos_lt_one _ 1 0 _ _ _ (gaussLoop_quarter 0)⟩

/-- C4: `uniformRand min max` applied to a standard uniform draw
`r ∈ [0, 1)` with `min < max` returns `min + r * (max - min)` and the
result lies in the half-open interval `[min, max)`. -/
theorem uniformRand_mem_Ico (mn mx r : ℚ) (hlt : mn < mx) (h0 : 0 ≤ r) (h1 : r < 1) :
    uniformRand mn mx r = mn + r * (mx - mn) ∧
      mn ≤ uniformRand mn mx r ∧ uniformRand mn mx r < mx := by
  unfold uniformRand
  refine ⟨by ring, ?_, ?_⟩
  · nlinarith
  · nlinarith

theorem uniformRand_mem_Ico_witness :
    uniformRand 0 1 (1/2) = 0 + (1/2 : ℚ) * (1 - 0) ∧
      (0 : ℚ) ≤ uniformRand 0 1 (1/2) ∧ uniformRand 0 1 (1/2) < 1 :=
  uniformRand_mem_Ico 0 1 (1/2) (by norm_num) (by norm_num) (by norm_num)

/-- If `sigma = 0` then the Gaussian sampler, whenever its rejection loop
terminates, returns exactly `mu`: the sample is `(z1 * marsaglia) * 0 + mu`. -/
theorem gaussRand_sigma_zero (mu : ℝ) (u : ℕ → ℚ) (fuel i : ℕ) (x : ℝ) (j : ℕ)
    (h : gaussRand mu 0 u fuel i = some (x, j)) : x = mu := by
  unfold gaussRand at h
  cases hg : gaussLoop u fuel i with
  | none => rw [hg] at h; simp at h
  | some r =>
    rw [hg] at h
    simp only [Option.map_some'] at h
    rw [Option.some.injEq, Prod.mk.injEq] at h
    rw [← h.1]
    ring

/-- If `N * p * (1 - p) = 0` then the Gaussian inside `binomRand` has
standard deviation `sqrt 0 = 0`, so the count is deterministically
`max (round (N * p)) 0` whenever the rejection loop terminates. -/
theorem binomRand_sigma_zero (N p : ℝ) (hz : N * p * (1 - p) = 0)
    (u : ℕ → ℚ) (fuel i : ℕ) (c : ℤ) (j : ℕ)
    (h : binomRand N p u fuel i = some (c, j)) : c = max (round (N * p)) 0 := by
  unfold binomRand at h
  rw [hz, Real.sqrt_zero] at h
  cases hg : gaussRand (N * p) 0 u fuel i with
  | none => rw [hg] at h; simp at h
  | some g =>
    have hx : g.1 = N * p := gaussRand_sigma_zero (N * p) u fuel i g.1 g.2 (by rw [hg])
    rw [hg] at h
    simp only [Option.map_some'] at h
    rw [Option.some.injEq, Prod.mk.injEq] at h
    rw [← h.1, hx]
    rcases le_or_lt (round (N * p)) 0 with hle | hlt
    · rw [if_neg (by omega), max_eq_right hle]
    · rw [if_pos hlt, max_eq_left hlt.le]

/-- C10: with `sigma = 0` the Gaussian generator returns exactly `mu` on
every draw sequence for which the rejection loop terminates, and
consequently `binomRand N p` is deterministic and equal to
`max (round (N * p)) 0` whenever `N * p * (1 - p) = 0`. -/
theorem gaussRand_zero_sigma_deterministic :
    (∀ (mu : ℝ) (u : ℕ → ℚ) (fuel i : ℕ) (x : ℝ) (j : ℕ),
        gaussRand mu 0 u fuel i = some (x, j) → x = mu) ∧
    (∀ (N p : ℝ), N * p * (1 - p) = 0 → ∀ (u : ℕ → ℚ) (fuel i : ℕ) (c : ℤ) (j : ℕ),
        binomRand N p u fuel i = some (c, j) → c = max (round (N * p)) 0) :=
  ⟨gaussRand_sigma_zero, binomRand_sigma_zero⟩

theorem gaussRand_quarter (mu sigma : ℝ) (i : ℕ) :
    gaussRand mu sigma (fun _ => (1/4 : ℚ)) 1 i =
      some ((((-(1/2) : ℚ) : ℝ) *
          Real.sqrt (-2 * Real.log (((1/2 : ℚ) : ℝ)) / ((1/2 : ℚ) : ℝ))) * sigma + mu,
        i + 2) := by
  rw [gaussRand, gaussLoop_quarter]
  rfl

theorem binomRand_quarter (N p : ℝ) (i : ℕ) :
    ∃ c, binomRand N p (fun _ => (1/4 : ℚ)) 1 i = some (c, i + 2) :=
  ⟨_, by rw [binomRand, gaussRand_quarter]; rfl⟩

theorem gaussRand_zero_sigma_deterministic_witness :
    (∃ x, gaussRand 5 0 (fun _ => (1/4 : ℚ)) 1 0 = some (x, 2) ∧ x = 5) ∧
    (∃ c, binomRand 0 (1/2) (fun _ => (1/4 : ℚ)) 1 0 = some (c, 2) ∧
        c = max (round ((0 : ℝ) * (1/2))) 0) := by
  refine ⟨⟨_, gaussRand_quarter 5 0 0,
    gaussRand_zero_sigma_deterministic.1 5 _ 1 0 _ 2 (gaussRand_quarter 5 0 0)⟩, ?_⟩
  obtain ⟨c, hc⟩ := binomRand_quarter 0 (1/2) 0
  exact ⟨c, hc,
    gaussRand_zero_sigma_deterministic.2 0 (1/2) (by ring) _ 1 0 c 2 hc⟩

/-- C5: `binomRand N p` equals the rounded Gaussian sample with mean
`N * p` and standard deviation `sqrt (N * p * (1 - p))`, clamped so that
a non-positive rounded value becomes 0; consequently it never returns a
negative value, and for `N = 0` or `p = 0` it always returns 0 no matter
which uniform draws were consumed. -/
theorem binomRand_spec (N p : ℝ) (hN : 0 ≤ N) (hp0 : 0 ≤ p) (hp1 : p ≤ 1)
    (u : ℕ → ℚ) (fuel i : ℕ) (c : ℤ) (j : ℕ)
    (h : binomRand N p u fuel i = some (c, j)) :
    0 ≤ c ∧
      (∃ x, gaussRand (N * p) (Real.sqrt (N * p * (1 - p))) u fuel i = some (x, j) ∧
        c = if 0 < round x then round x else 0) ∧
      ((N = 0 ∨ p = 0) → c = 0) := by
  have hzero : (N = 0 ∨ p = 0) → c = 0 := by
    intro h'
    have hnp : N * p = 0 := by rcases h' with h' | h' <;> rw [h'] <;> ring
    rw [binomRand_sigma_zero N p (by rw [hnp]; ring) u fuel i c j h, hnp, round_zero]
    simp
  unfold binomRand at h
  cases hg : gaussRand (N * p) (Real.sqrt (N * p * (1 - p))) u fuel i with
  | none => rw [hg] at h; simp at h
  | some g =>
    obtain ⟨x, k⟩ := g
    rw [hg] at h
    simp only [Option.map_some'] at h
    rw [Option.some.injEq, Prod.mk.injEq] at h
    obtain ⟨hc, hj⟩ := h
    subst hj
    refine ⟨?_, ⟨x, rfl, hc.symm⟩, hzero⟩
    rw [← hc]
    split
    · omega
    · exact le_refl 0

theorem binomRand_spec_witness :
    ∃ c, binomRand 0 (1/2) (fun _ => (1/4 : ℚ)) 1 0 = some (c, 2) ∧
      (0 ≤ c ∧
        (∃ x, gaussRand ((0 : ℝ) * (1/2)) (Real.sqrt ((0 : ℝ) * (1/2) * (1 - 1/2)))
            (fun _ => (1/4 : ℚ)) 1 0 = some (x, 2) ∧
          c = if 0 < round x then round x else 0) ∧
        (((0 : ℝ) = 0 ∨ (1/2 : ℝ) = 0) → c = 0)) := by
  obtain ⟨c, hc⟩ := binomRand_quarter 0 (1/2) 0
  exact ⟨c, hc, binomRand_spec 0 (1/2) le_rfl (by norm_num) (by norm_num) _ 1 0 c 2 hc⟩

/-- `basicIncomeCostBenefit()` from the source.  The returned association
list records the `amounts` object in insertion order; the second
component is the next unconsumed stream index. -/
noncomputable def basicIncomeCostBenefit (u : ℕ → ℚ) (fuel i : ℕ) :
    Option (List (String × ℝ) × ℕ) :=
  (gaussRand 250 75 u fuel i).bind fun g =>
    let nonWorkerMultiplier := uniformRand (-0.10) 0.15 (u g.2)
    let nonWorkers : ℝ :=
      (numAdults - laborForce - disabledAdults) * (1 + (nonWorkerMultiplier : ℝ))
    let avgHourlyWage : ℝ := 25
    let productivityMultiplier := uniformRand (-0.1) 0.2 (u (g.2 + 1))
    (binomRand nonWorkers 1e-7 u fuel (g.2 + 2)).bind fun b =>
      some ([("directCosts", numAdults * basicIncome / 2),
             ("administrativeCosts", numAdults * g.1),
             ("productivity",
               -laborForce * (40 * 52 * avgHourlyWage) * (productivityMultiplier : ℝ)),
             ("jkRowling", -(b.1 : ℝ) * 1e9)], b.2)

/-- `basicJobCostBenefit()` from the source. -/
noncomputable def basicJobCostBenefit (u : ℕ → ℚ) (fuel i : ℕ) :
    Option (List (String × ℝ) × ℕ) :=
  let nonWorkerMultiplier := uniformRand (-0.1) 0.15 (u i)
  let numBasicWorkers : ℝ :=
    (numAdults - disabledAdults - laborForce) * (1 + (nonWorkerMultiplier : ℝ))
  (gaussRand 500 150 u fuel (i + 1)).bind fun g1 =>
    (gaussRand 5000 1500 u fuel g1.2).bind fun g2 =>
      let basicJobHourlyProductivity := uniformRand (-7.25) 7.25 (u g2.2)
      some ([("directCosts", numBasicWorkers * basicIncome),
             ("disabled", disabledAdults * (basicIncome + g1.1)),
             ("administrativeCosts", numBasicWorkers * g2.1),
             ("productivity",
               -numBasicWorkers * (40 * 50 * (basicJobHourlyProductivity : ℝ)))], g2.2 + 1)

/-- The keys of a component mapping, in insertion order (`Object.keys`). -/
def keysOf (l : List (String × ℝ)) : List String := l.map Prod.fst

/-- The sum of all values of a component mapping. -/
def sumValues (l : List (String × ℝ)) : ℝ := (l.map Prod.snd).sum

/-- Property access `obj[key]` on a component mapping: the value at the
first entry carrying the key, if any. -/
def lookupAmt (k : String) : List (String × ℝ) → Option ℝ
  | [] => none
  | e :: rest => if e.1 = k then some e.2 else lookupAmt k rest

/-- One step of the body of `amountsAvgReducer`: for a single key of the
trial being folded in, either `avg[key] += amounts[key] / N` when
`avg.hasOwnProperty(key)`, or `avg[key] = amounts[key] / N` otherwise. -/
noncomputable def reducerEntry (N : ℝ) (avg : List (String × ℝ)) (kv : String × ℝ) :
    List (String × ℝ) :=
  if kv.1 ∈ keysOf avg then
    avg.map fun e => if e.1 = kv.1 then (e.1, e.2 + kv.2 / N) else e
  else avg ++ [(kv.1, kv.2 / N)]

/-- `amountsAvgReducer(avg, amounts)` from `run()`: folds every key of
`amounts` into the running average object. -/
noncomputable def amountsAvgReducer (N : ℝ) (avg amounts : List (String × ℝ)) :
    List (String × ℝ) :=
  amounts.foldl (reducerEntry N) avg

/-- `biAmounts.reduce(amountsAvgReducer, {})`: the Aggregator. -/
noncomputable def amountsAvg (N : ℝ) (trials : List (List (String × ℝ))) :
    List (String × ℝ) :=
  trials.foldl (amountsAvgReducer N) []

/-- The per-trial total from `run()`:
`Object.keys(amounts).reduce((total, key) => amounts[key] / 1e12 + total, 0)`. -/
noncomputable def totalOf (amounts : List (String × ℝ)) : ℝ :=
  amounts.foldl (fun total kv => kv.2 / 1e12 + total) 0

/-- The module-level results that `run()` fills in:
`biAmounts`, `biTotals`, `bjAmounts`, `bjTotals`, `biAmountsAvg`,
`bjAmountsAvg`. -/
structure RunResult where
  biAmounts : List (List (String × ℝ))
  biTotals : List ℝ
  bjAmounts : List (List (String × ℝ))
  bjTotals : List ℝ
  biAmountsAvg : List (String × ℝ)
  bjAmountsAvg : List (String × ℝ)

/-- The `for (var i = 0; i < N; i++)` loop of `run()`: each iteration
draws one basic-income trial and then one basic-job trial from the same
stream.  Returns the two trial collections and the next stream index. -/
noncomputable def runLoop (u : ℕ → ℚ) (fuel : ℕ) :
    ℕ → ℕ → Option (List (List (String × ℝ)) × List (List (String × ℝ)) × ℕ)
  | 0, i => some ([], [], i)
  | n + 1, i =>
    (basicIncomeCostBenefit u fuel i).bind fun bi =>
      (basicJobCostBenefit u fuel bi.2).bind fun bj =>
        (runLoop u fuel n bj.2).bind fun rest =>
          some (bi.1 :: rest.1, bj.1 :: rest.2.1, rest.2.2)

/-- `run()` with the loop bound `N` generalized to a parameter (the
source fixes `var N = 1000` inside the function body; a non-positive `N`
makes the `for` loop run zero times).  The totals are the per-trial
totals and the averages are produced by the Aggregator with the same
`N` as divisor, exactly as in the source. -/
noncomputable def runGen (N : ℤ) (u : ℕ → ℚ) (fuel : ℕ) : Option RunResult :=
  (runLoop u fuel N.toNat 0).map fun r =>
    { biAmounts := r.1
      biTotals := r.1.map totalOf
      bjAmounts := r.2.1
      bjTotals := (r.2.1).map totalOf
      biAmountsAvg := amountsAvg (N : ℝ) r.1
      bjAmountsAvg := amountsAvg (N : ℝ) r.2.1 }

/-- `run()` from the source: `var N = 1000`. -/
noncomputable def run (u : ℕ → ℚ) (fuel : ℕ) : Option RunResult := runGen 1000 u fuel

/-- Destructuring a successful basic-income trial: the output object is
exactly the four-entry list built by the model, in insertion order. -/
theorem basicIncomeCostBenefit_shape (u : ℕ → ℚ) (fuel i : ℕ)
    (A : List (String × ℝ)) (j : ℕ)
    (h : basicIncomeCostBenefit u fuel i = some (A, j)) :
    ∃ g b, gaussRand 250 75 u fuel i = some g ∧
      binomRand ((numAdults - laborForce - disabledAdults) *
          (1 + ((uniformRand (-0.10) 0.15 (u g.2) : ℚ) : ℝ))) 1e-7 u fuel (g.2 + 2) =
        some b ∧
      A = [("directCosts", numAdults * basicIncome / 2),
           ("administrativeCosts", numAdults * g.1),
           ("productivity",
             -laborForce * (40 * 52 * 25) * ((uniformRand (-0.1) 0.2 (u (g.2 + 1)) : ℚ) : ℝ)),
           ("jkRowling", -(b.1 : ℝ) * 1e9)] ∧
      j = b.2 := by
  unfold basicIncomeCostBenefit at h
  cases hg : gaussRand 250 75 u fuel i with
  | none => rw [hg] at h; simp at h
  | some g =>
    rw [hg] at h
    simp only [Option.some_bind] at h
    cases hb : binomRand ((numAdults - laborForce - disabledAdults) *
        (1 + ((uniformRand (-0.10) 0.15 (u g.2) : ℚ) : ℝ))) 1e-7 u fuel (g.2 + 2) with
    | none => rw [hb] at h; simp at h
    | some b =>
      rw [hb] at h
      simp only [Option.some_bind, Option.some.injEq, Prod.mk.injEq] at h
      exact ⟨g, b, rfl, hb, h.1.symm, h.2.symm⟩

/-- Destructuring a successful basic-job trial. -/
theorem basicJobCostBenefit_shape (u : ℕ → ℚ) (fuel i : ℕ)
    (A : List (String × ℝ)) (j : ℕ)
    (h : basicJobCostBenefit u fuel i = some (A, j)) :
    ∃ g1 g2, gaussRand 500 150 u fuel (i + 1) = some g1 ∧
      gaussRand 5000 1500 u fuel g1.2 = some g2 ∧
      A = [("directCosts",
             (numAdults - disabledAdults - laborForce) *
               (1 + ((uniformRand (-0.1) 0.15 (u i) : ℚ) : ℝ)) * basicIncome),
           ("disabled", disabledAdults * (basicIncome + g1.1)),
           ("administrativeCosts",
             (numAdults - disabledAdults - laborForce) *
               (1 + ((uniformRand (-0.1) 0.15 (u i) : ℚ) : ℝ)) * g2.1),
           ("productivity",
             -((numAdults - disabledAdults - laborForce) *
                 (1 + ((uniformRand (-0.1) 0.15 (u i) : ℚ) : ℝ))) *
               (40 * 50 * ((uniformRand (-7.25) 7.25 (u g2.2) : ℚ) : ℝ)))] ∧
      j = g2.2 + 1 := by
  unfold basicJobCostBenefit at h
  cases hg1 : gaussRand 500 150 u fuel (i + 1) with
  | none => rw [hg1] at h; simp at h
  | some g1 =>
    rw [hg1] at h
    simp only [Option.some_bind] at h
    cases hg2 : gaussRand 5000 1500 u fuel g1.2 with
    | none => rw [hg2] at h; simp at h
    | some g2 =>
      rw [hg2] at h
      simp only [Option.some_bind, Option.some.injEq, Prod.mk.injEq] at h
      exact ⟨g1, g2, rfl, hg2, h.1.symm, h.2.symm⟩

/-- C6: on every successful invocation of the basic-income model and
regardless of the random draws, the `directCosts` component equals
exactly `numAdults * basicIncome / 2`; it is a constant, never
randomized. -/
theorem basicIncomeCostBenefit_directCosts (u : ℕ → ℚ) (fuel i : ℕ)
    (A : List (String × ℝ)) (j : ℕ)
    (h : basicIncomeCostBenefit u fuel i = some (A, j)) :
    lookupAmt "directCosts" A = some (numAdults * basicIncome / 2) := by
  obtain ⟨g, b, _, _, hA, _⟩ := basicIncomeCostBenefit_shape u fuel i A j h
  rw [hA]
  rfl

theorem basicIncomeCostBenefit_quarter (i : ℕ) :
    ∃ A, basicIncomeCostBenefit (fun _ => (1/4 : ℚ)) 1 i = some (A, i + 6) := by
  obtain ⟨cnt, hc⟩ := binomRand_quarter
    ((numAdults - laborForce - disabledAdults) *
      (1 + ((uniformRand (-0.10) 0.15 (1/4) : ℚ) : ℝ))) 1e-7 (i + 2 + 2)
  exact ⟨_, by
    unfold basicIncomeCostBenefit
    rw [gaussRand_quarter]
    simp only [Option.some_bind]
    rw [hc]
    rfl⟩

theorem basicJobCostBenefit_quarter (i : ℕ) :
    ∃ A, basicJobCostBenefit (fun _ => (1/4 : ℚ)) 1 i = some (A, i + 6) := by
  exact ⟨_, by
    unfold basicJobCostBenefit
    rw [gaussRand_quarter]
    simp only [Option.some_bind]
    rw [gaussRand_quarter]
    simp only [Option.some_bind]
    rfl⟩

theorem runLoop_quarter (n : ℕ) :
    ∀ i, ∃ r, runLoop (fun _ => (1/4 : ℚ)) 1 n i = some r := by
  induction n with
  | zero => intro i; exact ⟨_, rfl⟩
  | succ m ih =>
    intro i
    obtain ⟨A, hA⟩ := basicIncomeCostBenefit_quarter i
    obtain ⟨B, hB⟩ := basicJobCostBenefit_quarter (i + 6)
    obtain ⟨r, hr⟩ := ih (i + 6 + 6)
    exact ⟨_, by
      rw [runLoop, hA]
      simp only [Option.some_bind]
      rw [hB]
      simp only [Option.some_bind]
      rw [hr]
      rfl⟩

theorem run_quarter : ∃ res, run (fun _ => (1/4 : ℚ)) 1 = some res := by
  obtain ⟨r, hr⟩ := runLoop_quarter 1000 0
  exact ⟨_, by
    rw [run, runGen]
    rw [show ((1000 : ℤ).toNat) = 1000 from rfl, hr]
    rfl⟩

theorem basicIncomeCostBenefit_directCosts_witness :
    ∃ A, basicIncomeCostBenefit (fun _ => (1/4 : ℚ)) 1 0 = some (A, 6) ∧
      lookupAmt "directCosts" A = some (numAdults * basicIncome / 2) := by
  obtain ⟨A, hA⟩ := basicIncomeCostBenefit_quarter 0
  exact ⟨A, hA, basicIncomeCostBenefit_directCosts _ 1 0 A 6 hA⟩

theorem keysOf_nil : keysOf [] = [] := rfl

theorem keysOf_cons (e : String × ℝ) (l : List (String × ℝ)) :
    keysOf (e :: l) = e.1 :: keysOf l := rfl

theorem lookupAmt_eq_none_iff (k : String) (l : List (String × ℝ)) :
    lookupAmt k l = none ↔ k ∉ keysOf l := by
  induction l with
  | nil => simp [lookupAmt, keysOf_nil]
  | cons e rest ih =>
    rw [keysOf_cons]
    by_cases he : e.1 = k
    · simp [lookupAmt, he]
    · simp [lookupAmt, he, ih, Ne.symm he]

theorem lookupAmt_isSome_iff (k : String) (l : List (String × ℝ)) :
    (lookupAmt k l).isSome ↔ k ∈ keysOf l := by
  rw [← Option.ne_none_iff_isSome, Ne, lookupAmt_eq_none_iff, not_not]

theorem lookupAmt_map_update (k k' : String) (c : ℝ) (l : List (String × ℝ)) :
    lookupAmt k (l.map fun e => if e.1 = k' then (e.1, e.2 + c) else e) =
      if k' = k then (lookupAmt k l).map (· + c) else lookupAmt k l := by
  induction l with
  | nil => by_cases hk : k' = k <;> simp [lookupAmt, hk]
  | cons e rest ih =>
    obtain ⟨k1, v1⟩ := e
    rw [List.map_cons]
    dsimp only
    by_cases h1 : k1 = k'
    · subst h1
      by_cases hk1 : k1 = k
      · subst hk1
        simp [lookupAmt]
      · simp [lookupAmt, hk1, ih]
    · by_cases hk : k' = k
      · subst hk
        simp [lookupAmt, h1, Ne.symm h1, ih]
      · by_cases hk1 : k1 = k
        · subst hk1
          simp [lookupAmt, h1, hk]
        · simp [lookupAmt, h1, hk, hk1, ih]

theorem lookupAmt_append_some (k : String) (l l' : List (String × ℝ)) (v : ℝ)
    (h : lookupAmt k l = some v) : lookupAmt k (l ++ l') = some v := by
  induction l with
  | nil => simp [lookupAmt] at h
  | cons e rest ih =>
    by_cases he : e.1 = k
    · simp only [lookupAmt, he, if_pos] at h
      simpa [lookupAmt, he] using h
    · simp only [lookupAmt, he, if_neg, if_false] at h
      simpa [lookupAmt, he] using ih h

theorem lookupAmt_append_none (k : String) (l l' : List (String × ℝ))
    (h : lookupAmt k l = none) : lookupAmt k (l ++ l') = lookupAmt k l' := by
  induction l with
  | nil => simp
  | cons e rest ih =>
    by_cases he : e.1 = k
    · simp [lookupAmt, he] at h
    · simp only [lookupAmt, he, if_neg, if_false] at h
      simpa [lookupAmt, he] using ih h

/-- Reading one key after folding one key/value pair of a trial into the
average object: the addressed key gains `v / N` (starting from 0 if
absent) and every other key is untouched. -/
theorem lookupAmt_reducerEntry (N : ℝ) (avg : List (String × ℝ)) (k k' : String) (v : ℝ) :
    lookupAmt k (reducerEntry N avg (k', v)) =
      if k' = k then some ((lookupAmt k avg).getD 0 + v / N) else lookupAmt k avg := by
  unfold reducerEntry
  dsimp only
  by_cases hmem : k' ∈ keysOf avg
  · rw [if_pos hmem, lookupAmt_map_update]
    by_cases hk : k' = k
    · rw [if_pos hk, if_pos hk]
      have hkk : k ∈ keysOf avg := hk ▸ hmem
      rw [← lookupAmt_isSome_iff] at hkk
      obtain ⟨w, hw⟩ := Option.isSome_iff_exists.mp hkk
      rw [hw]
      rfl
    · rw [if_neg hk, if_neg hk]
  · rw [if_neg hmem]
    by_cases hk : k' = k
    · subst hk
      have hnone : lookupAmt k' avg = none := (lookupAmt_eq_none_iff _ _).mpr hmem
      rw [lookupAmt_append_none _ _ _ hnone, if_pos rfl, hnone]
      simp [lookupAmt]
    · cases hl : lookupAmt k avg with
      | none => rw [lookupAmt_append_none _ _ _ hl, if_neg hk]; simp [lookupAmt, hk]
      | some w => rw [lookupAmt_append_some _ _ _ _ hl, if_neg hk]

/-- The total contribution of one trial to one key: the sum of the values
of that trial's entries carrying the key. -/
def tSum (k : String) (t : List (String × ℝ)) : ℝ :=
  ((t.filter fun e => e.1 = k).map Prod.snd).sum

theorem tSum_nil (k : String) : tSum k [] = 0 := rfl

theorem tSum_cons (k k' : String) (v : ℝ) (rest : List (String × ℝ)) :
    tSum k ((k', v) :: rest) = if k' = k then v + tSum k rest else tSum k rest := by
  unfold tSum
  by_cases hk : k' = k <;> simp [List.filter_cons, hk]

theorem tSum_eq_zero (k : String) (t : List (String × ℝ)) (h : k ∉ keysOf t) :
    tSum k t = 0 := by
  induction t with
  | nil => rfl
  | cons e rest ih =>
    obtain ⟨k', v⟩ := e
    rw [keysOf, List.map_cons, List.mem_cons] at h
    push_neg at h
    rw [tSum_cons, if_neg (fun hc => h.1 hc.symm)]
    exact ih h.2

theorem amountsAvgReducer_cons (N : ℝ) (avg : List (String × ℝ)) (e : String × ℝ)
    (rest : List (String × ℝ)) :
    amountsAvgReducer N avg (e :: rest) = amountsAvgReducer N (reducerEntry N avg e) rest := by
  simp [amountsAvgReducer]

/-- Reading one key after folding a whole trial into the average object. -/
theorem lookupAmt_amountsAvgReducer (N : ℝ) (k : String) (t : List (String × ℝ)) :
    ∀ avg, lookupAmt k (amountsAvgReducer N avg t) =
      if k ∈ keysOf t then some ((lookupAmt k avg).getD 0 + tSum k t / N)
      else lookupAmt k avg := by
  induction t with
  | nil => intro avg; simp [amountsAvgReducer, keysOf, tSum_nil]
  | cons e rest ih =>
    intro avg
    obtain ⟨k', v⟩ := e
    rw [amountsAvgReducer_cons, ih, lookupAmt_reducerEntry]
    rw [keysOf_cons, tSum_cons]
    dsimp only
    by_cases hk : k' = k
    · rw [if_pos hk, if_pos hk]
      have hmem : k ∈ (k' : String) :: keysOf rest := by rw [hk]; exact List.mem_cons_self _ _
      rw [if_pos hmem]
      by_cases hrest : k ∈ keysOf rest
      · rw [if_pos hrest]
        congr 1
        simp only [Option.getD_some]
        ring
      · rw [if_neg hrest, tSum_eq_zero k rest hrest]
        congr 1
        ring
    · rw [if_neg hk, if_neg hk]
      have hiff : (k ∈ (k' : String) :: keysOf rest) ↔ k ∈ keysOf rest := by
        rw [List.mem_cons]
        exact ⟨fun h => h.resolve_left fun hc => hk (hc.symm), Or.inr⟩
      by_cases hrest : k ∈ keysOf rest
      · rw [if_pos hrest, if_pos (hiff.mpr hrest)]
      · rw [if_neg hrest, if_neg (fun hc => hrest (hiff.mp hc))]

theorem sum_tSum_eq_zero (N : ℝ) (k : String) (ts : List (List (String × ℝ)))
    (h : ∀ t ∈ ts, k ∉ keysOf t) : (ts.map (tSum k)).sum = 0 := by
  induction ts with
  | nil => simp
  | cons t rest ih =>
    rw [List.map_cons, List.sum_cons, tSum_eq_zero k t (h t (List.mem_cons_self _ _)),
      ih (fun t' ht' => h t' (List.mem_cons_of_mem _ ht'))]
    ring

/-- Reading one key of the average object produced by folding a whole
trial collection: present iff some trial carries the key, with value the
sum of the per-trial contributions divided by `N`. -/
theorem lookupAmt_foldl_reducer (N : ℝ) (k : String) (trials : List (List (String × ℝ))) :
    ∀ avg, lookupAmt k (trials.foldl (amountsAvgReducer N) avg) =
      if ∃ t ∈ trials, k ∈ keysOf t then
        some ((lookupAmt k avg).getD 0 + (trials.map (tSum k)).sum / N)
      else lookupAmt k avg := by
  induction trials with
  | nil => intro avg; simp
  | cons t ts ih =>
    intro avg
    rw [List.foldl_cons, ih, lookupAmt_amountsAvgReducer]
    by_cases ht : k ∈ keysOf t
    · have hex : ∃ t' ∈ t :: ts, k ∈ keysOf t' := ⟨t, List.mem_cons_self _ _, ht⟩
      rw [if_pos ht, if_pos hex]
      by_cases hts : ∃ t' ∈ ts, k ∈ keysOf t'
      · rw [if_pos hts]
        simp only [Option.getD_some, List.map_cons, List.sum_cons]
        congr 1
        ring
      · rw [if_neg hts]
        push_neg at hts
        rw [List.map_cons, List.sum_cons, sum_tSum_eq_zero N k ts hts]
        congr 1
        ring
    · rw [if_neg ht]
      by_cases hts : ∃ t' ∈ ts, k ∈ keysOf t'
      · have hex : ∃ t' ∈ t :: ts, k ∈ keysOf t' :=
          let ⟨t', ht', hk'⟩ := hts
          ⟨t', List.mem_cons_of_mem _ ht', hk'⟩
        rw [if_pos hts, if_pos hex, List.map_cons, List.sum_cons, tSum_eq_zero k t ht]
        congr 1
        ring
      · have hex : ¬ ∃ t' ∈ t :: ts, k ∈ keysOf t' := by
          rintro ⟨t', ht', hk'⟩
          rcases List.mem_cons.mp ht' with rfl | hmem
          · exact ht hk'
          · exact hts ⟨t', hmem, hk'⟩
        rw [if_neg hts, if_neg hex]

/-- C3: the Aggregator is order-independent — for every trial collection
and every permutation of it, the average objects agree on every key
(the same keys are mapped to the same values). -/
theorem amountsAvg_perm (N : ℝ) (trials trials' : List (List (String × ℝ)))
    (hperm : trials.Perm trials') (k : String) :
    lookupAmt k (amountsAvg N trials) = lookupAmt k (amountsAvg N trials') := by
  rw [amountsAvg, amountsAvg, lookupAmt_foldl_reducer, lookupAmt_foldl_reducer]
  have hex : (∃ t ∈ trials, k ∈ keysOf t) ↔ ∃ t ∈ trials', k ∈ keysOf t := by
    constructor <;> rintro ⟨t, ht, hk⟩
    · exact ⟨t, hperm.mem_iff.mp ht, hk⟩
    · exact ⟨t, hperm.mem_iff.mpr ht, hk⟩
  have hsum : (trials.map (tSum k)).sum = (trials'.map (tSum k)).sum :=
    (hperm.map (tSum k)).sum_eq
  by_cases h : ∃ t ∈ trials, k ∈ keysOf t
  · rw [if_pos h, if_pos (hex.mp h), hsum]
  · rw [if_neg h, if_neg (fun hc => h (hex.mpr hc))]

theorem amountsAvg_perm_witness :
    lookupAmt "a" (amountsAvg 2 [[("a", 1)], [("b", 2)]]) =
      lookupAmt "a" (amountsAvg 2 [[("b", 2)], [("a", 1)]]) :=
  amountsAvg_perm 2 [[("a", 1)], [("b", 2)]] [[("b", 2)], [("a", 1)]]
    (List.Perm.swap _ _ _) "a"

theorem sumValues_nil : sumValues [] = 0 := rfl

theorem sumValues_cons (e : String × ℝ) (l : List (String × ℝ)) :
    sumValues (e :: l) = e.2 + sumValues l := by
  simp [sumValues]

theorem sumValues_append (l l' : List (String × ℝ)) :
    sumValues (l ++ l') = sumValues l + sumValues l' := by
  simp [sumValues]

/-- The keys after folding one entry: unchanged when the key is already
present, extended by the new key otherwise. -/
theorem keysOf_reducerEntry (N : ℝ) (avg : List (String × ℝ)) (kv : String × ℝ) :
    keysOf (reducerEntry N avg kv) =
      if kv.1 ∈ keysOf avg then keysOf avg else keysOf avg ++ [kv.1] := by
  unfold reducerEntry
  by_cases hmem : kv.1 ∈ keysOf avg
  · rw [if_pos hmem, if_pos hmem]
    unfold keysOf
    rw [List.map_map]
    apply List.map_congr_left
    intro e he
    by_cases h : e.1 = kv.1 <;> simp [h]
  · rw [if_neg hmem, if_neg hmem]
    unfold keysOf
    rw [List.map_append]
    rfl

theorem keysOf_reducerEntry_nodup (N : ℝ) (avg : List (String × ℝ)) (kv : String × ℝ)
    (hnd : (keysOf avg).Nodup) : (keysOf (reducerEntry N avg kv)).Nodup := by
  rw [keysOf_reducerEntry]
  by_cases hmem : kv.1 ∈ keysOf avg
  · rwa [if_pos hmem]
  · rw [if_neg hmem]
    simp [List.nodup_append, hnd, hmem]

theorem sumValues_map_update (k' : String) (c : ℝ) (l : List (String × ℝ))
    (hnd : (keysOf l).Nodup) (hmem : k' ∈ keysOf l) :
    sumValues (l.map fun e => if e.1 = k' then (e.1, e.2 + c) else e) = sumValues l + c := by
  induction l with
  | nil => simp [keysOf_nil] at hmem
  | cons e rest ih =>
    obtain ⟨k1, v1⟩ := e
    rw [keysOf_cons] at hnd hmem
    rw [List.map_cons]
    dsimp only at hnd hmem ⊢
    by_cases h1 : k1 = k'
    · rw [if_pos h1]
      have hnotin : k' ∉ keysOf rest := h1 ▸ (List.nodup_cons.mp hnd).1
      have hrest : rest.map (fun e => if e.1 = k' then (e.1, e.2 + c) else e) = rest := by
        have hcongr : ∀ e ∈ rest, (if e.1 = k' then (e.1, e.2 + c) else e) = id e := by
          intro e he
          have hne : ¬ e.1 = k' := fun hc =>
            hnotin (hc ▸ List.mem_map_of_mem Prod.fst he)
          simp [hne]
        rw [List.map_congr_left hcongr, List.map_id]
      rw [hrest, sumValues_cons, sumValues_cons]
      dsimp only
      ring
    · rw [if_neg h1]
      have hmem' : k' ∈ keysOf rest := by
        rcases List.mem_cons.mp hmem with hc | hc
        · exact absurd hc.symm h1
        · exact hc
      rw [sumValues_cons, sumValues_cons, ih (List.nodup_cons.mp hnd).2 hmem']
      ring

/-- Folding one key/value pair adds exactly `v / N` to the total of the
average object (into an existing key or as a fresh key). -/
theorem sumValues_reducerEntry (N : ℝ) (avg : List (String × ℝ)) (kv : String × ℝ)
    (hnd : (keysOf avg).Nodup) :
    sumValues (reducerEntry N avg kv) = sumValues avg + kv.2 / N := by
  unfold reducerEntry
  by_cases hmem : kv.1 ∈ keysOf avg
  · rw [if_pos hmem, sumValues_map_update kv.1 (kv.2 / N) avg hnd hmem]
  · rw [if_neg hmem, sumValues_append]
    simp [sumValues]

theorem keysOf_amountsAvgReducer_nodup (N : ℝ) (t : List (String × ℝ)) :
    ∀ avg, (keysOf avg).Nodup → (keysOf (amountsAvgReducer N avg t)).Nodup := by
  induction t with
  | nil => intro avg h; exact h
  | cons e rest ih =>
    intro avg h
    rw [amountsAvgReducer_cons]
    exact ih _ (keysOf_reducerEntry_nodup N avg e h)

/-- Folding a whole trial adds exactly `sumValues t / N` to the total. -/
theorem sumValues_amountsAvgReducer (N : ℝ) (t : List (String × ℝ)) :
    ∀ avg, (keysOf avg).Nodup →
      sumValues (amountsAvgReducer N avg t) = sumValues avg + sumValues t / N := by
  induction t with
  | nil =>
    intro avg _
    rw [amountsAvgReducer, List.foldl_nil, sumValues_nil, zero_div, add_zero]
  | cons e rest ih =>
    intro avg hnd
    rw [amountsAvgReducer_cons, ih _ (keysOf_reducerEntry_nodup N avg e hnd),
      sumValues_reducerEntry N avg e hnd, sumValues_cons]
    ring

theorem sumValues_foldl_reducer (N : ℝ) (trials : List (List (String × ℝ))) :
    ∀ avg, (keysOf avg).Nodup →
      sumValues (trials.foldl (amountsAvgReducer N) avg) =
        sumValues avg + (trials.map sumValues).sum / N := by
  induction trials with
  | nil => intro avg _; simp
  | cons t ts ih =>
    intro avg hnd
    rw [List.foldl_cons, ih _ (keysOf_amountsAvgReducer_nodup N t avg hnd),
      sumValues_amountsAvgReducer N t avg hnd, List.map_cons, List.sum_cons]
    ring

/-- The total of the Aggregator's output is the sum of the per-trial
totals divided by `N` (exact arithmetic). -/
theorem sumValues_amountsAvg (N : ℝ) (trials : List (List (String × ℝ))) :
    sumValues (amountsAvg N trials) = (trials.map sumValues).sum / N := by
  rw [amountsAvg, sumValues_foldl_reducer N trials [] (by simp [keysOf_nil]), sumValues_nil,
    zero_add]

theorem totalOf_eq (t : List (String × ℝ)) : totalOf t = sumValues t / 1e12 := by
  suffices h : ∀ (a : ℝ), t.foldl (fun total kv => kv.2 / 1e12 + total) a =
      a + sumValues t / 1e12 by
    rw [totalOf, h 0, zero_add]
  induction t with
  | nil => intro a; rw [List.foldl_nil, sumValues_nil, zero_div, add_zero]
  | cons e rest ih =>
    intro a
    rw [List.foldl_cons, ih, sumValues_cons]
    ring

theorem sum_map_totalOf (l : List (List (String × ℝ))) :
    (l.map totalOf).sum = (l.map sumValues).sum / 1e12 := by
  induction l with
  | nil => simp
  | cons t rest ih =>
    rw [List.map_cons, List.sum_cons, totalOf_eq, ih, List.map_cons, List.sum_cons]
    ring

theorem keysOf_amountsAvgReducer_of_subset (N : ℝ) (t : List (String × ℝ)) :
    ∀ avg, (∀ k ∈ keysOf t, k ∈ keysOf avg) →
      keysOf (amountsAvgReducer N avg t) = keysOf avg := by
  induction t with
  | nil => intro avg _; rfl
  | cons e rest ih =>
    intro avg hsub
    rw [keysOf_cons] at hsub
    rw [amountsAvgReducer_cons]
    have he : e.1 ∈ keysOf avg := hsub e.1 (List.mem_cons_self _ _)
    have hkeys : keysOf (reducerEntry N avg e) = keysOf avg := by
      rw [keysOf_reducerEntry, if_pos he]
    rw [ih _ (fun k hk => hkeys ▸ hsub k (List.mem_cons_of_mem _ hk)), hkeys]

theorem keysOf_amountsAvgReducer_of_disjoint (N : ℝ) (t : List (String × ℝ)) :
    ∀ avg, (keysOf t).Nodup → (∀ k ∈ keysOf t, k ∉ keysOf avg) →
      keysOf (amountsAvgReducer N avg t) = keysOf avg ++ keysOf t := by
  induction t with
  | nil => intro avg _ _; rw [keysOf_nil, List.append_nil]; rfl
  | cons e rest ih =>
    intro avg hnd hdisj
    rw [keysOf_cons] at hnd hdisj ⊢
    have hnotin : e.1 ∉ keysOf avg := hdisj e.1 (List.mem_cons_self _ _)
    rw [amountsAvgReducer_cons]
    have hkeys : keysOf (reducerEntry N avg e) = keysOf avg ++ [e.1] := by
      rw [keysOf_reducerEntry, if_neg hnotin]
    have hdisj' : ∀ k ∈ keysOf rest, k ∉ keysOf (reducerEntry N avg e) := by
      intro k hk
      rw [hkeys, List.mem_append, List.mem_singleton]
      rintro (hc | hc)
      · exact hdisj k (List.mem_cons_of_mem _ hk) hc
      · exact (List.nodup_cons.mp hnd).1 (hc ▸ hk)
    rw [ih _ (List.nodup_cons.mp hnd).2 hdisj', hkeys, List.append_assoc,
      List.singleton_append]

theorem keysOf_foldl_reducer_of_all_eq (N : ℝ) (K : List String)
    (ts : List (List (String × ℝ))) :
    ∀ avg, keysOf avg = K → (∀ t ∈ ts, keysOf t = K) →
      keysOf (ts.foldl (amountsAvgReducer N) avg) = K := by
  induction ts with
  | nil => intro avg h _; exact h
  | cons t ts ih =>
    intro avg havg hts
    rw [List.foldl_cons]
    have hstep : keysOf (amountsAvgReducer N avg t) = K := by
      rw [keysOf_amountsAvgReducer_of_subset N t avg
        (fun k hk => by rw [havg]; exact (hts t (List.mem_cons_self _ _)) ▸ hk), havg]
    exact ih _ hstep (fun t' ht' => hts t' (List.mem_cons_of_mem _ ht'))

/-- When every trial of a nonempty collection has exactly the key list
`K` (without duplicates), the Aggregator's output has exactly the key
list `K`, in the same order. -/
theorem keysOf_amountsAvg (N : ℝ) (K : List String) (trials : List (List (String × ℝ)))
    (hne : trials ≠ []) (hK : ∀ t ∈ trials, keysOf t = K) (hnd : K.Nodup) :
    keysOf (amountsAvg N trials) = K := by
  cases trials with
  | nil => exact absurd rfl hne
  | cons t ts =>
    rw [amountsAvg, List.foldl_cons]
    have ht : keysOf t = K := hK t (List.mem_cons_self _ _)
    have hbase : keysOf (amountsAvgReducer N [] t) = K := by
      rw [keysOf_amountsAvgReducer_of_disjoint N t [] (ht ▸ hnd)
        (fun k _ => by simp [keysOf_nil]), keysOf_nil, List.nil_append, ht]
    exact keysOf_foldl_reducer_of_all_eq N K ts _ hbase
      (fun t' ht' => hK t' (List.mem_cons_of_mem _ ht'))

theorem basicIncomeCostBenefit_keys (u : ℕ → ℚ) (fuel i : ℕ)
    (A : List (String × ℝ)) (j : ℕ)
    (h : basicIncomeCostBenefit u fuel i = some (A, j)) :
    keysOf A = ["directCosts", "administrativeCosts", "productivity", "jkRowling"] := by
  obtain ⟨g, b, _, _, hA, _⟩ := basicIncomeCostBenefit_shape u fuel i A j h
  rw [hA]
  rfl

theorem basicJobCostBenefit_keys (u : ℕ → ℚ) (fuel i : ℕ)
    (A : List (String × ℝ)) (j : ℕ)
    (h : basicJobCostBenefit u fuel i = some (A, j)) :
    keysOf A = ["directCosts", "disabled", "administrativeCosts", "productivity"] := by
  obtain ⟨g1, g2, _, _, hA, _⟩ := basicJobCostBenefit_shape u fuel i A j h
  rw [hA]
  rfl

/-- Structure of a successful run of the simulation loop: `n` trials per
model, and every recorded trial is a successful model output. -/
theorem runLoop_spec (u : ℕ → ℚ) (fuel : ℕ) :
    ∀ n i a b j, runLoop u fuel n i = some (a, b, j) →
      a.length = n ∧ b.length = n ∧
      (∀ A ∈ a, ∃ i' jA, basicIncomeCostBenefit u fuel i' = some (A, jA)) ∧
      (∀ B ∈ b, ∃ i' jB, basicJobCostBenefit u fuel i' = some (B, jB)) := by
  intro n
  induction n with
  | zero =>
    intro i a b j h
    rw [runLoop] at h
    simp only [Option.some.injEq, Prod.mk.injEq] at h
    obtain ⟨ha, hb, _⟩ := h
    subst ha
    subst hb
    exact ⟨rfl, rfl, fun A hA => absurd hA (List.not_mem_nil A),
      fun B hB => absurd hB (List.not_mem_nil B)⟩
  | succ m ih =>
    intro i a b j h
    rw [runLoop] at h
    cases hbi : basicIncomeCostBenefit u fuel i with
    | none => rw [hbi] at h; simp at h
    | some bi =>
      rw [hbi] at h
      simp only [Option.some_bind] at h
      cases hbj : basicJobCostBenefit u fuel bi.2 with
      | none => rw [hbj] at h; simp at h
      | some bj =>
        rw [hbj] at h
        simp only [Option.some_bind] at h
        cases hrest : runLoop u fuel m bj.2 with
        | none => rw [hrest] at h; simp at h
        | some rest =>
          rw [hrest] at h
          simp only [Option.some_bind, Option.some.injEq, Prod.mk.injEq] at h
          obtain ⟨ha, hb, _⟩ := h
          obtain ⟨h1, h2, h3, h4⟩ :=
            ih bj.2 rest.1 rest.2.1 rest.2.2 (by rw [hrest])
          subst ha
          subst hb
          refine ⟨by simp [h1], by simp [h2], ?_, ?_⟩
          · intro A hA
            rcases List.mem_cons.mp hA with rfl | hmem
            · exact ⟨i, bi.2, by rw [hbi]⟩
            · exact h3 A hmem
          · intro B hB
            rcases List.mem_cons.mp hB with rfl | hmem
            · exact ⟨bi.2, bj.2, by rw [hbj]⟩
            · exact h4 B hmem

/-- Destructuring a successful full run in terms of the loop output. -/
theorem run_shape_aux (u : ℕ → ℚ) (fuel : ℕ) (res : RunResult)
    (h : run u fuel = some res) :
    ∃ a b j, runLoop u fuel 1000 0 = some (a, b, j) ∧
      res.biAmounts = a ∧ res.biTotals = a.map totalOf ∧
      res.bjAmounts = b ∧ res.bjTotals = b.map totalOf ∧
      res.biAmountsAvg = amountsAvg (((1000 : ℤ) : ℝ)) a ∧
      res.bjAmountsAvg = amountsAvg (((1000 : ℤ) : ℝ)) b := by
  rw [run, runGen, show ((1000 : ℤ).toNat) = 1000 from rfl] at h
  cases hloop : runLoop u fuel 1000 0 with
  | none => rw [hloop] at h; simp at h
  | some r =>
    rw [hloop] at h
    simp only [Option.map_some', Option.some.injEq] at h
    exact ⟨r.1, r.2.1, r.2.2, rfl, by rw [← h], by rw [← h], by rw [← h],
      by rw [← h], by rw [← h], by rw [← h]⟩

/-- C7: every successful full simulation (`N = 1000`) yields exactly 1000
entries in each model's trial collection (amounts and totals), and the
two average objects have exactly the expected key sets, for every
outcome of the random draws. -/
theorem run_trial_count_and_keys (u : ℕ → ℚ) (fuel : ℕ) (res : RunResult)
    (h : run u fuel = some res) :
    res.biAmounts.length = 1000 ∧ res.biTotals.length = 1000 ∧
      res.bjAmounts.length = 1000 ∧ res.bjTotals.length = 1000 ∧
      keysOf res.biAmountsAvg =
        ["directCosts", "administrativeCosts", "productivity", "jkRowling"] ∧
      keysOf res.bjAmountsAvg =
        ["directCosts", "disabled", "administrativeCosts", "productivity"] := by
  obtain ⟨a, b, j, hloop, ha, hat, hb, hbt, havg, hbvg⟩ := run_shape_aux u fuel res h
  obtain ⟨hlen1, hlen2, hmem1, hmem2⟩ := runLoop_spec u fuel 1000 0 a b j hloop
  have hane : a ≠ [] := by
    intro hc
    rw [hc] at hlen1
    simp at hlen1
  have hbne : b ≠ [] := by
    intro hc
    rw [hc] at hlen2
    simp at hlen2
  refine ⟨by rw [ha, hlen1], by rw [hat, List.length_map, hlen1],
    by rw [hb, hlen2], by rw [hbt, List.length_map, hlen2], ?_, ?_⟩
  · rw [havg]
    exact keysOf_amountsAvg _ _ a hane
      (fun t ht =>
        let ⟨i', jA, hA⟩ := hmem1 t ht
        basicIncomeCostBenefit_keys u fuel i' t jA hA)
      (by simp)
  · rw [hbvg]
    exact keysOf_amountsAvg _ _ b hbne
      (fun t ht =>
        let ⟨i', jB, hB⟩ := hmem2 t ht
        basicJobCostBenefit_keys u fuel i' t jB hB)
      (by simp)

theorem run_trial_count_and_keys_witness :
    ∃ res, run (fun _ => (1/4 : ℚ)) 1 = some res ∧
      (res.biAmounts.length = 1000 ∧ res.biTotals.length = 1000 ∧
        res.bjAmounts.length = 1000 ∧ res.bjTotals.length = 1000 ∧
        keysOf res.biAmountsAvg =
          ["directCosts", "administrativeCosts", "productivity", "jkRowling"] ∧
        keysOf res.bjAmountsAvg =
          ["directCosts", "disabled", "administrativeCosts", "productivity"]) := by
  obtain ⟨res, hres⟩ := run_quarter
  exact ⟨res, hres, run_trial_count_and_keys _ 1 res hres⟩

/-- C1: for both models, on every successful run the sum of the values of
the average object equals the arithmetic mean of the per-trial totals
multiplied by `1e12`, exactly, over exact real arithmetic. -/
theorem run_avg_reconciles_totals (u : ℕ → ℚ) (fuel : ℕ) (res : RunResult)
    (h : run u fuel = some res) :
    sumValues res.biAmountsAvg = res.biTotals.sum / (res.biTotals.length : ℝ) * 1e12 ∧
      sumValues res.bjAmountsAvg = res.bjTotals.sum / (res.bjTotals.length : ℝ) * 1e12 := by
  obtain ⟨a, b, j, hloop, ha, hat, hb, hbt, havg, hbvg⟩ := run_shape_aux u fuel res h
  obtain ⟨hlen1, hlen2, _, _⟩ := runLoop_spec u fuel 1000 0 a b j hloop
  constructor
  · rw [havg, hat, sumValues_amountsAvg, sum_map_totalOf, List.length_map, hlen1]
    have h12 : (1e12 : ℝ) ≠ 0 := by norm_num
    have h1000 : ((1000 : ℤ) : ℝ) = (1000 : ℝ) := by norm_num
    rw [h1000]
    field_simp
    ring
  · rw [hbvg, hbt, sumValues_amountsAvg, sum_map_totalOf, List.length_map, hlen2]
    have h12 : (1e12 : ℝ) ≠ 0 := by norm_num
    have h1000 : ((1000 : ℤ) : ℝ) = (1000 : ℝ) := by norm_num
    rw [h1000]
    field_simp
    ring

theorem run_avg_reconciles_totals_witness :
    ∃ res, run (fun _ => (1/4 : ℚ)) 1 = some res ∧
      (sumValues res.biAmountsAvg = res.biTotals.sum / (res.biTotals.length : ℝ) * 1e12 ∧
        sumValues res.bjAmountsAvg =
          res.bjTotals.sum / (res.bjTotals.length : ℝ) * 1e12) := by
  obtain ⟨res, hres⟩ := run_quarter
  exact ⟨res, hres, run_avg_reconciles_totals _ 1 res hres⟩

/-- The claim that a run with `N ≤ 0` is rejected is false: with the loop
bound generalized exactly as in the source (`for (i = 0; i < N; i++)`),
`N = 0` silently yields a defined, empty result — empty trial
collections, empty totals and empty average objects — rather than an
error. -/
theorem runGen_zero_silent_empty :
    runGen 0 (fun _ => (1/4 : ℚ)) 1 = some ⟨[], [], [], [], [], []⟩ := rfl

/-- C9 (amended): the source fixes `N = 1000` inside `run` rather than
taking it as a parameter, and a non-positive loop bound is not rejected:
the loop simply runs zero times, silently producing empty collections
and empty averages. -/
theorem run_fixed_N_nonpositive_silent :
    (∀ (u : ℕ → ℚ) (fuel : ℕ), run u fuel = runGen 1000 u fuel) ∧
    (∀ (N : ℤ), N ≤ 0 → ∀ (u : ℕ → ℚ) (fuel : ℕ),
        runGen N u fuel = some ⟨[], [], [], [], [], []⟩) := by
  refine ⟨fun u fuel => rfl, fun N hN u fuel => ?_⟩
  rw [runGen, Int.toNat_of_nonpos hN]
  rfl

theorem run_fixed_N_nonpositive_silent_witness :
    run (fun _ => (1/4 : ℚ)) 1 = runGen 1000 (fun _ => (1/4 : ℚ)) 1 ∧
      runGen (-3) (fun _ => (1/4 : ℚ)) 1 = some ⟨[], [], [], [], [], []⟩ :=
  ⟨run_fixed_N_nonpositive_silent.1 _ 1,
    run_fixed_N_nonpositive_silent.2 (-3) (by norm_num) _ 1⟩

theorem gaussLoop_le (u : ℕ → ℚ) (fuel : ℕ) :
    ∀ i z r j, gaussLoop u fuel i = some (z, r, j) → i + 2 ≤ j := by
  induction fuel with
  | zero => intro i z r j h; simp [gaussLoop] at h
  | succ n ih =>
    intro i z r j h
    rw [gaussLoop] at h
    split at h
    · have := ih _ _ _ _ h
      omega
    · simp only [Option.some.injEq, Prod.mk.injEq] at h
      omega

/-- The rejection loop reads only the draws at indices in `[i, j)`, so any
stream agreeing with `u` there produces the same result. -/
theorem gaussLoop_congr (u u' : ℕ → ℚ) (fuel : ℕ) :
    ∀ i z r j, gaussLoop u fuel i = some (z, r, j) →
      (∀ m, i ≤ m → m < j → u' m = u m) → gaussLoop u' fuel i = some (z, r, j) := by
  induction fuel with
  | zero => intro i z r j h _; simp [gaussLoop] at h
  | succ n ih =>
    intro i z r j h hagree
    have hj : i + 2 ≤ j := gaussLoop_le u (n + 1) i z r j h
    have hu0 : u' i = u i := hagree i (le_refl i) (by omega)
    have hu1 : u' (i + 1) = u (i + 1) := hagree (i + 1) (by omega) (by omega)
    rw [gaussLoop] at h ⊢
    rw [hu0, hu1]
    split at h
    · rename_i hcond
      rw [if_pos hcond]
      exact ih _ _ _ _ h (fun m hm1 hm2 => hagree m (by omega) hm2)
    · rename_i hcond
      rw [if_neg hcond]
      exact h

theorem gaussRand_congr (mu sigma : ℝ) (u u' : ℕ → ℚ) (fuel i : ℕ) (x : ℝ) (j : ℕ)
    (h : gaussRand mu sigma u fuel i = some (x, j))
    (hagree : ∀ m, i ≤ m → m < j → u' m = u m) :
    gaussRand mu sigma u' fuel i = some (x, j) := by
  unfold gaussRand at h ⊢
  cases hg : gaussLoop u fuel i with
  | none => rw [hg] at h; simp at h
  | some w =>
    obtain ⟨z, r, jj⟩ := w
    rw [hg] at h
    simp only [Option.map_some', Option.some.injEq, Prod.mk.injEq] at h
    have hjj : jj = j := h.2
    rw [gaussLoop_congr u u' fuel i z r jj (by rw [hg]) (fun m hm1 hm2 =>
      hagree m hm1 (hjj ▸ hm2))]
    simp only [Option.map_some', Option.some.injEq, Prod.mk.injEq]
    exact h

theorem lookupAmt_bi_productivity (a b c d : ℝ) :
    lookupAmt "productivity"
      [("directCosts", a), ("administrativeCosts", b), ("productivity", c),
        ("jkRowling", d)] = some c := rfl

theorem lookupAmt_bi_jkRowling (a b c d : ℝ) :
    lookupAmt "jkRowling"
      [("directCosts", a), ("administrativeCosts", b), ("productivity", c),
        ("jkRowling", d)] = some d := rfl

/-- Changing only the draw consumed by the `nonWorkerMultiplier` uniform
(the draw at the index where the administrative-cost Gaussian left the
stream) never changes the `productivity` component of the basic-income
model: `productivity` is computed from the labor force and its own
later uniform draw, not from `nonWorkers`. -/
theorem basicIncome_productivity_independent (u : ℕ → ℚ) (fuel i : ℕ) (z r : ℚ)
    (j0 : ℕ) (q : ℚ) (A A' : List (String × ℝ)) (jA jA' : ℕ)
    (hloop : gaussLoop u fuel i = some (z, r, j0))
    (hA : basicIncomeCostBenefit u fuel i = some (A, jA))
    (hA' : basicIncomeCostBenefit (Function.update u j0 q) fuel i = some (A', jA')) :
    lookupAmt "productivity" A' = lookupAmt "productivity" A := by
  obtain ⟨g, b, hg, hb, hAeq, hj⟩ := basicIncomeCostBenefit_shape u fuel i A jA hA
  obtain ⟨g', b', hg', hb', hAeq', hj'⟩ :=
    basicIncomeCostBenefit_shape _ fuel i A' jA' hA'
  have hgr : gaussRand 250 75 u fuel i =
      some (((z : ℝ) * Real.sqrt (-2 * Real.log (r : ℝ) / (r : ℝ))) * 75 + 250, j0) := by
    rw [gaussRand, hloop]
    rfl
  have hgg : g = (((z : ℝ) * Real.sqrt (-2 * Real.log (r : ℝ) / (r : ℝ))) * 75 + 250, j0) :=
    Option.some.inj (hg.symm.trans hgr)
  have hagree : ∀ m, i ≤ m → m < j0 → Function.update u j0 q m = u m :=
    fun m _ hm => Function.update_noteq (by omega) q u
  have hgr' : gaussRand 250 75 (Function.update u j0 q) fuel i =
      some (((z : ℝ) * Real.sqrt (-2 * Real.log (r : ℝ) / (r : ℝ))) * 75 + 250, j0) :=
    gaussRand_congr 250 75 u _ fuel i _ j0 hgr hagree
  have hgg' : g' = (((z : ℝ) * Real.sqrt (-2 * Real.log (r : ℝ) / (r : ℝ))) * 75 + 250, j0) :=
    Option.some.inj (hg'.symm.trans hgr')
  rw [hAeq, hAeq', lookupAmt_bi_productivity, lookupAmt_bi_productivity, hgg, hgg']
  have hupd : Function.update u j0 q (j0 + 1) = u (j0 + 1) :=
    Function.update_noteq (by omega) q u
  rw [hupd]

/-- C8 counterexample: the claim that the `productivity` component can
differ between two runs differing only in the `nonWorkerMultiplier`
draw is false — no such pair of runs exists. -/
theorem nonWorker_draw_counterexample :
    ¬ ∃ (u : ℕ → ℚ) (fuel i : ℕ) (z r : ℚ) (j0 : ℕ) (q : ℚ)
        (A A' : List (String × ℝ)) (jA jA' : ℕ),
      gaussLoop u fuel i = some (z, r, j0) ∧
      basicIncomeCostBenefit u fuel i = some (A, jA) ∧
      basicIncomeCostBenefit (Function.update u j0 q) fuel i = some (A', jA') ∧
      lookupAmt "productivity" A ≠ lookupAmt "productivity" A' := by
  rintro ⟨u, fuel, i, z, r, j0, q, A, A', jA, jA', hloop, hA, hA', hne⟩
  exact hne
    (basicIncome_productivity_independent u fuel i z r j0 q A A' jA jA'
      hloop hA hA').symm

/-- A concrete draw stream: the two administrative-cost Gaussian draws
accept immediately, position 2 holds the `nonWorkerMultiplier` draw
(chosen so the multiplier is 0), and positions 4–5 make the binomial's
Gaussian accept with `z1 = 0` so the sample is exactly its mean. -/
def uC8 : ℕ → ℚ := fun n =>
  if n = 2 then 2/5 else if n = 4 then 1/2 else if n = 5 then 3/4 else 1/4

theorem uC8_gaussLoop0 : gaussLoop uC8 1 0 = some (-(1/2), 1/2, 2) := by
  rw [gaussLoop]
  norm_num [uC8]

theorem uC8_gaussLoop4 : gaussLoop uC8 1 (2 + 2) = some (0, 1/4, 6) := by
  rw [gaussLoop]
  norm_num [uC8]

theorem uC8_gaussRand0 :
    gaussRand 250 75 uC8 1 0 =
      some ((((-(1/2) : ℚ) : ℝ) *
          Real.sqrt (-2 * Real.log (((1/2 : ℚ) : ℝ)) / ((1/2 : ℚ) : ℝ))) * 75 + 250, 2) := by
  rw [gaussRand, uC8_gaussLoop0]
  rfl

theorem uC8_nonWorkers :
    (numAdults - laborForce - disabledAdults) *
      (1 + ((uniformRand (-0.10) 0.15 (uC8 2) : ℚ) : ℝ)) = 52000000 := by
  have h2 : uC8 2 = 2/5 := by norm_num [uC8]
  have hu : uniformRand (-0.10) 0.15 (2/5) = 0 := by
    norm_num [uniformRand]
  rw [h2, hu]
  norm_num [numAdults, laborForce, disabledAdults]

theorem uC8_binomRand :
    binomRand ((numAdults - laborForce - disabledAdults) *
        (1 + ((uniformRand (-0.10) 0.15 (uC8 2) : ℚ) : ℝ))) 1e-7 uC8 1 (2 + 2) =
      some (5, 6) := by
  rw [binomRand, gaussRand, uC8_gaussLoop4]
  simp only [Option.map_some', Option.some.injEq, Prod.mk.injEq]
  have hx : (((0 : ℚ) : ℝ) *
        Real.sqrt (-2 * Real.log (((1/4 : ℚ) : ℝ)) / ((1/4 : ℚ) : ℝ))) *
        Real.sqrt ((numAdults - laborForce - disabledAdults) *
          (1 + ((uniformRand (-0.10) 0.15 (uC8 2) : ℚ) : ℝ)) * 1e-7 *
          (1 - 1e-7)) +
        (numAdults - laborForce - disabledAdults) *
          (1 + ((uniformRand (-0.10) 0.15 (uC8 2) : ℚ) : ℝ)) * 1e-7 = 26/5 := by
    rw [uC8_nonWorkers]
    push_cast
    norm_num
  rw [hx]
  have hr : round ((26/5 : ℝ)) = 5 := by
    rw [round_eq, Int.floor_eq_iff]
    constructor <;> norm_num
  rw [hr]
  norm_num

theorem uC8_gaussLoop0' :
    gaussLoop (Function.update uC8 2 (4/5)) 1 0 = some (-(1/2), 1/2, 2) :=
  gaussLoop_congr uC8 _ 1 0 _ _ 2 uC8_gaussLoop0
    (fun m _ hm => Function.update_noteq (by omega) _ _)

theorem uC8_gaussLoop4' :
    gaussLoop (Function.update uC8 2 (4/5)) 1 (2 + 2) = some (0, 1/4, 6) :=
  gaussLoop_congr uC8 _ 1 (2 + 2) _ _ 6 uC8_gaussLoop4
    (fun m hm _ => Function.update_noteq (by omega) _ _)

theorem uC8_gaussRand0' :
    gaussRand 250 75 (Function.update uC8 2 (4/5)) 1 0 =
      some ((((-(1/2) : ℚ) : ℝ) *
          Real.sqrt (-2 * Real.log (((1/2 : ℚ) : ℝ)) / ((1/2 : ℚ) : ℝ))) * 75 + 250, 2) := by
  rw [gaussRand, uC8_gaussLoop0']
  rfl

theorem uC8_nonWorkers' :
    (numAdults - laborForce - disabledAdults) *
      (1 + ((uniformRand (-0.10) 0.15 (Function.update uC8 2 (4/5) 2) : ℚ) : ℝ)) =
      57200000 := by
  have h2 : Function.update uC8 2 (4/5) 2 = 4/5 := Function.update_same 2 (4/5) uC8
  have hu : uniformRand (-0.10) 0.15 (4/5) = 1/10 := by
    norm_num [uniformRand]
  rw [h2, hu]
  norm_num [numAdults, laborForce, disabledAdults]

theorem uC8_binomRand' :
    binomRand ((numAdults - laborForce - disabledAdults) *
        (1 + ((uniformRand (-0.10) 0.15 (Function.update uC8 2 (4/5) 2) : ℚ) : ℝ)))
        1e-7 (Function.update uC8 2 (4/5)) 1 (2 + 2) =
      some (6, 6) := by
  rw [binomRand, gaussRand, uC8_gaussLoop4']
  simp only [Option.map_some', Option.some.injEq, Prod.mk.injEq]
  have hx : (((0 : ℚ) : ℝ) *
        Real.sqrt (-2 * Real.log (((1/4 : ℚ) : ℝ)) / ((1/4 : ℚ) : ℝ))) *
        Real.sqrt ((numAdults - laborForce - disabledAdults) *
          (1 + ((uniformRand (-0.10) 0.15 (Function.update uC8 2 (4/5) 2) : ℚ) : ℝ)) *
            1e-7 * (1 - 1e-7)) +
        (numAdults - laborForce - disabledAdults) *
          (1 + ((uniformRand (-0.10) 0.15 (Function.update uC8 2 (4/5) 2) : ℚ) : ℝ)) *
          1e-7 = 143/25 := by
    rw [uC8_nonWorkers']
    push_cast
    norm_num
  rw [hx]
  have hr : round ((143/25 : ℝ)) = 6 := by
    rw [round_eq, Int.floor_eq_iff]
    constructor <;> norm_num
  rw [hr]
  norm_num

theorem uC8_bi :
    ∃ A, basicIncomeCostBenefit uC8 1 0 = some (A, 6) ∧
      lookupAmt "jkRowling" A = some (-((5 : ℤ) : ℝ) * 1e9) := by
  obtain ⟨A, hA⟩ : ∃ A, basicIncomeCostBenefit uC8 1 0 = some (A, 6) := ⟨_, by
    unfold basicIncomeCostBenefit
    rw [uC8_gaussRand0]
    simp only [Option.some_bind]
    rw [uC8_binomRand]
    simp only [Option.some_bind]
    rfl⟩
  refine ⟨A, hA, ?_⟩
  obtain ⟨g, b, hg, hb, hAeq, hj⟩ := basicIncomeCostBenefit_shape uC8 1 0 A 6 hA
  have hgg := Option.some.inj (hg.symm.trans uC8_gaussRand0)
  rw [hgg] at hb
  have hbb : b = (5, 6) := Option.some.inj (hb.symm.trans uC8_binomRand)
  rw [hAeq, lookupAmt_bi_jkRowling, hbb]

theorem uC8_bi' :
    ∃ A, basicIncomeCostBenefit (Function.update uC8 2 (4/5)) 1 0 = some (A, 6) ∧
      lookupAmt "jkRowling" A = some (-((6 : ℤ) : ℝ) * 1e9) := by
  obtain ⟨A, hA⟩ :
      ∃ A, basicIncomeCostBenefit (Function.update uC8 2 (4/5)) 1 0 = some (A, 6) := ⟨_, by
    unfold basicIncomeCostBenefit
    rw [uC8_gaussRand0']
    simp only [Option.some_bind]
    rw [uC8_binomRand']
    simp only [Option.some_bind]
    rfl⟩
  refine ⟨A, hA, ?_⟩
  obtain ⟨g, b, hg, hb, hAeq, hj⟩ :=
    basicIncomeCostBenefit_shape (Function.update uC8 2 (4/5)) 1 0 A 6 hA
  have hgg := Option.some.inj (hg.symm.trans uC8_gaussRand0')
  rw [hgg] at hb
  have hbb : b = (6, 6) := Option.some.inj (hb.symm.trans uC8_binomRand')
  rw [hAeq, lookupAmt_bi_jkRowling, hbb]

/-- C8 (amended): the `nonWorkers` intermediate never appears as an
output key; the `nonWorkerMultiplier` draw feeds only the `jkRowling`
component — `jkRowling` genuinely depends on it (two runs differing only
in that draw can produce different `jkRowling` values), while
`productivity` is independent of it (any two runs differing only in
that draw have identical `productivity`). -/
theorem nonWorker_draw_dataflow :
    (∀ (u : ℕ → ℚ) (fuel i : ℕ) (A : List (String × ℝ)) (j : ℕ),
        basicIncomeCostBenefit u fuel i = some (A, j) →
        keysOf A = ["directCosts", "administrativeCosts", "productivity", "jkRowling"]) ∧
    (∀ (u : ℕ → ℚ) (fuel i : ℕ) (z r : ℚ) (j0 : ℕ) (q : ℚ)
        (A A' : List (String × ℝ)) (jA jA' : ℕ),
        gaussLoop u fuel i = some (z, r, j0) →
        basicIncomeCostBenefit u fuel i = some (A, jA) →
        basicIncomeCostBenefit (Function.update u j0 q) fuel i = some (A', jA') →
        lookupAmt "productivity" A' = lookupAmt "productivity" A) ∧
    (∃ (u : ℕ → ℚ) (z r : ℚ) (j0 : ℕ) (q : ℚ) (A A' : List (String × ℝ)),
        gaussLoop u 1 0 = some (z, r, j0) ∧
        basicIncomeCostBenefit u 1 0 = some (A, 6) ∧
        basicIncomeCostBenefit (Function.update u j0 q) 1 0 = some (A', 6) ∧
        lookupAmt "jkRowling" A ≠ lookupAmt "jkRowling" A') := by
  refine ⟨basicIncomeCostBenefit_keys, basicIncome_productivity_independent, ?_⟩
  obtain ⟨A, hA, hAjk⟩ := uC8_bi
  obtain ⟨A', hA', hAjk'⟩ := uC8_bi'
  refine ⟨uC8, -(1/2), 1/2, 2, 4/5, A, A', uC8_gaussLoop0, hA, hA', ?_⟩
  rw [hAjk, hAjk']
  intro hc
  rw [Option.some.injEq] at hc
  push_cast at hc
  norm_num at hc

theorem nonWorker_draw_dataflow_witness :
    ∃ A, basicIncomeCostBenefit uC8 1 0 = some (A, 6) ∧
      keysOf A = ["directCosts", "administrativeCosts", "productivity", "jkRowling"] ∧
      ∃ A', basicIncomeCostBenefit (Function.update uC8 2 (4/5)) 1 0 = some (A', 6) ∧
        lookupAmt "productivity" A' = lookupAmt "productivity" A := by
  obtain ⟨A, hA, _⟩ := uC8_bi
  obtain ⟨A', hA', _⟩ := uC8_bi'
  exact ⟨A, hA, nonWorker_draw_dataflow.1 uC8 1 0 A 6 hA, A', hA',
    nonWorker_draw_dataflow.2.1 uC8 1 0 (-(1/2)) (1/2) 2 (4/5) A A' 6 6
      uC8_gaussLoop0 hA hA'⟩

end BasicIncomeBasicJob
